import Mathlib

/-!
# Verification of the openRouter_UI streaming / regeneration core

Shallow embedding of the chat client's streaming-response decoder
(`readSSE` in `src/js/api-service.js`), the response assemblers
(`handleStreamingResponse`, `handleStreamingImageResponse`,
`handleNonStreamingResponse` in `src/js/app.js`, and the legacy
`runChat` chunk handler in the unnamed legacy script), the session
cancellation logic (`beginStream` / `abortActive` /
`cleanupStreamState` in `src/js/api-service.js`) and the regeneration
store (`src/js/regeneration-manager.js`).

Conventions used throughout:
* JS strings are modelled as `List Char` inside the decoder (where
  character-level scanning matters) and as `String` in the assembler
  and store (where they are only concatenated and compared).
* A JS field access guarded by truthiness (`x && x.y`) is modelled by
  `Option`: `some v` means the field is present and truthy.
* `JSON.parse` and `TextDecoder` are platform primitives; `JSON.parse`
  is treated as an arbitrary partial function (a `parse` parameter)
  and the UTF-8 decoder is modelled byte-incrementally below, as the
  WHATWG streaming `TextDecoder` behaves.
-/

namespace OpenRouterUI


/-! ## UTF-8 incremental byte decoder

Model of `new TextDecoder('utf-8')` used with `{ stream: true }` in
`readSSE`: a stateful decoder that buffers an incomplete multi-byte
sequence across `decode` calls.  The state is the list of pending
bytes of an unfinished sequence. -/

/-- Expected total length of a UTF-8 sequence whose lead byte is `b`;
`0` marks an invalid lead byte. -/
def utf8Need (b : Nat) : Nat :=
  if b < 0x80 then 1
  else if b < 0xC0 then 0
  else if b < 0xE0 then 2
  else if b < 0xF0 then 3
  else if b < 0xF8 then 4
  else 0

/-- Decode a complete UTF-8 byte sequence (lead byte plus continuation
bytes) into a character.  Invalid code points collapse to `Char.ofNat`'s
fallback, which does not affect any property proved here. -/
def utf8Finish (seq : List Nat) : Char :=
  match seq with
  | [b] => Char.ofNat b
  | [b1, b2] => Char.ofNat ((b1 - 0xC0) * 64 + (b2 - 0x80))
  | [b1, b2, b3] => Char.ofNat (((b1 - 0xE0) * 64 + (b2 - 0x80)) * 64 + (b3 - 0x80))
  | [b1, b2, b3, b4] =>
      Char.ofNat ((((b1 - 0xF0) * 64 + (b2 - 0x80)) * 64 + (b3 - 0x80)) * 64 + (b4 - 0x80))
  | _ => Char.ofNat 0xFFFD

/-- One byte of streaming UTF-8 decoding: given the pending bytes of an
unfinished sequence and the next byte, produce the new pending list and
the characters emitted. -/
def utf8Step (pending : List Nat) (b : Nat) : List Nat × List Char :=
  match pending with
  | [] =>
    if b < 0x80 then ([], [Char.ofNat b])
    else if utf8Need b = 0 then ([], [Char.ofNat 0xFFFD])
    else ([b], [])
  | p :: ps =>
    if 0x80 ≤ b ∧ b < 0xC0 then
      let seq := (p :: ps) ++ [b]
      if seq.length = utf8Need p then ([], [utf8Finish seq])
      else (seq, [])
    else
      -- broken sequence: emit a replacement char, reprocess `b` fresh
      if b < 0x80 then ([], [Char.ofNat 0xFFFD, Char.ofNat b])
      else if utf8Need b = 0 then ([], [Char.ofNat 0xFFFD, Char.ofNat 0xFFFD])
      else ([b], [Char.ofNat 0xFFFD])

/-- Streaming decode of a whole byte chunk, as one
`decoder.decode(bytes, { stream: true })` call. -/
def utf8DecodeChunk (pending : List Nat) : List Nat → List Nat × List Char
  | [] => (pending, [])
  | b :: bs =>
    let s1 := utf8Step pending b
    let s2 := utf8DecodeChunk s1.1 bs
    (s2.1, s1.2 ++ s2.2)

/-! ## SSE frame scanning (`readSSE`, `src/js/api-service.js` lines 80–118)

The decoder keeps a growing text buffer; `buffer.indexOf('\n\n')`
locates the next frame boundary, the frame is split into lines, and
only `data:` lines matter.  `"[DONE]"` stops everything. -/

/-- Model of `buffer.indexOf("\n\n")` followed by the two `slice` calls: the
text before the first blank-line delimiter and the text after it, or
`none` when no delimiter is present. -/
def splitAtDelim : List Char → Option (List Char × List Char)
  | [] => none
  | [_] => none
  | c1 :: c2 :: rest =>
    if c1 = '\n' ∧ c2 = '\n' then some ([], rest)
    else
      match splitAtDelim (c2 :: rest) with
      | some (pre, post) => some (c1 :: pre, post)
      | none => none

/-- Model of `chunk.split('\n')`. -/
def splitOnNl : List Char → List (List Char)
  | [] => [[]]
  | c :: cs =>
    let r := splitOnNl cs
    if c = '\n' then [] :: r
    else
      match r with
      | [] => [[c]]
      | l :: ls => (c :: l) :: ls

/-- Whitespace as removed by JS `String.prototype.trim`. -/
def isJsWs (c : Char) : Bool :=
  c = ' ' ∨ c = '\t' ∨ c = '\n' ∨ c = '\r' ∨ c = '\x0b' ∨ c = '\x0c'

/-- JS `String.prototype.trim` on a character list. -/
def trimChars (l : List Char) : List Char :=
  ((l.dropWhile isJsWs).reverse.dropWhile isJsWs).reverse

/-- The characters of the literal `"data:"`. -/
def dataLabel : List Char := ['d', 'a', 't', 'a', ':']

/-- The characters of the sentinel payload `"[DONE]"`. -/
def doneSentinel : List Char := ['[', 'D', 'O', 'N', 'E', ']']

/-- The `for` loop over a frame's lines in `readSSE`
(`api-service.js` lines 96–110): trim each line, skip lines not
starting with `data:`, stop at `[DONE]` (second component `true`),
parse everything else and silently drop parse failures.  `parse`
stands for `JSON.parse` packaged with its `try`/`catch`. -/
def processLines {α : Type} (parse : List Char → Option α) :
    List (List Char) → List α × Bool
  | [] => ([], false)
  | l :: ls =>
    let line := trimChars l
    if dataLabel.isPrefixOf line then
      let data := trimChars (line.drop 5)
      if data = doneSentinel then ([], true)
      else
        match parse data with
        | some o =>
          let r := processLines parse ls
          (o :: r.1, r.2)
        | none => processLines parse ls
    else processLines parse ls

/-- Process one complete frame (the text before a `"\n\n"`). -/
def processFrame {α : Type} (parse : List Char → Option α) (frame : List Char) :
    List α × Bool :=
  processLines parse (splitOnNl frame)

/-- The `while ((idx = buffer.indexOf('\n\n')) !== -1)` loop, with an
explicit fuel argument for structural termination (each iteration
removes at least the two delimiter characters, so `buffer.length` fuel
always suffices).  Returns the residual buffer, the payloads handed to
`onChunk` in order, and whether `[DONE]` ended the stream. -/
def scanBufAux {α : Type} (parse : List Char → Option α) :
    Nat → List Char → List Char × List α × Bool
  | 0, buf => (buf, [], false)
  | fuel + 1, buf =>
    match splitAtDelim buf with
    | none => (buf, [], false)
    | some (f, rest) =>
      let pr := processFrame parse f
      if pr.2 then (rest, pr.1, true)
      else
        let r := scanBufAux parse fuel rest
        (r.1, pr.1 ++ r.2.1, r.2.2)

/-- The buffer-scan loop of `readSSE`, at its natural fuel. -/
def scanBuffer {α : Type} (parse : List Char → Option α) (buf : List Char) :
    List Char × List α × Bool :=
  scanBufAux parse buf.length buf

/-! ## The chunk-level decoder state of `readSSE` -/

/-- The mutable state of one `readSSE` call: the `TextDecoder`'s
pending bytes, the `buffer` string, and whether the stream already
terminated via `[DONE]` (after which the code has returned and later
reads are never processed). -/
structure SSEState where
  pending : List Nat
  buffer : List Char
  done : Bool
deriving Repr, DecidableEq

/-- State at the top of `readSSE`: empty decoder, empty buffer. -/
def sseInit : SSEState := ⟨[], [], false⟩

/-- One loop iteration of `pump` receiving a byte chunk
(`api-service.js` lines 90–111): decode the bytes statefully, append
to the buffer, extract and process every complete frame.  Returns the
new state and the payloads passed to `onChunk`, in order. -/
def processChunkBytes {α : Type} (parse : List Char → Option α)
    (st : SSEState) (bytes : List Nat) : SSEState × List α :=
  if st.done then (st, [])
  else
    let dec := utf8DecodeChunk st.pending bytes
    let sc := scanBuffer parse (st.buffer ++ dec.2)
    (⟨dec.1, sc.1, sc.2.2⟩, sc.2.1)

/-- All payloads delivered to `onChunk` over a sequence of received
byte chunks. -/
def runChunks {α : Type} (parse : List Char → Option α)
    (st : SSEState) : List (List Nat) → List α
  | [] => []
  | c :: cs =>
    let r := processChunkBytes parse st c
    r.2 ++ runChunks parse r.1 cs

/-- A state reachable by `readSSE`: either terminated, or the residual
buffer holds no complete frame. -/
def SSEState.reachable (st : SSEState) : Prop :=
  st.done = true ∨ splitAtDelim st.buffer = none

/-! ## Supporting lemmas for single-frame streams -/

/-- The text of one SSE frame `data: <payload>` followed by its
blank-line delimiter. -/
def sseFrame (d : List Char) : List Char :=
  'd' :: 'a' :: 't' :: 'a' :: ':' :: ' ' :: d ++ ['\n', '\n']

/-- A payload in the form servers actually emit: nonempty, no
newline, not whitespace-padded, and not the `[DONE]` sentinel. -/
def cleanPayload (d : List Char) : Bool :=
  !d.isEmpty && !isJsWs (d.headD ' ') && !isJsWs (d.getLastD ' ') &&
    !d.contains '\n' && d ≠ doneSentinel

/-- Concrete witness for C5: payload `1` parses, payload `x` is
malformed, payload `3` parses; both valid payloads are delivered. -/
def wparse : List Char → Option Nat := fun l =>
  if l = ['1'] then some 1 else if l = ['3'] then some 3 else none

/-! ## Wire payload shapes consumed by the assemblers

`Option` encodes JS truthiness of the corresponding field: `some v`
means the field chain is present and truthy (so e.g. `part.text` being
the empty string is `none`, exactly as `part.text &&` treats it). -/

/-- One entry of a `message.images` / `delta.images` array; `url` is
`image_url.url`. -/
structure ImgEntry where
  type : String
  url : Option String
deriving Repr, DecidableEq

/-- One entry of a structured content-part array; `imageUrl` is
`part.image_url.url`. -/
structure ContentPart where
  type : String
  text : Option String
  imageUrl : Option String
deriving Repr, DecidableEq

/-- Shape of `message.content` / `delta.content`: absent, a plain string, or an
array of typed parts. -/
inductive MsgContent where
  | absent
  | str (s : String)
  | parts (ps : List ContentPart)
deriving Repr, DecidableEq

structure Message where
  content : MsgContent
  images : Option (List ImgEntry)
deriving Repr, DecidableEq

structure Delta where
  content : MsgContent
  images : Option (List ImgEntry)
deriving Repr, DecidableEq

structure Choice where
  delta : Option Delta
  message : Option Message
  finish_reason : Option String
deriving Repr, DecidableEq

/-- One decoded (non-fallback) payload object: a record with an array
of choices. -/
structure Chunk where
  choices : List Choice
deriving Repr, DecidableEq

/-- JS `array.join('')` on a list of strings. -/
def joinStr : List String → String
  | [] => ""
  | s :: rest => s ++ joinStr rest

/-- Model of `extractTextFromMessage` (`api-service.js` lines 265–284): a plain
string content is returned as is; an array content contributes its
`output_text` parts joined in order; anything else (including an empty
array, for which the JS falls through to the final `return ''`) yields
the empty string. -/
def extractTextFromMessage : Option Message → String
  | Option.none => ""
  | some m =>
    match m.content with
    | MsgContent.str s => s
    | MsgContent.parts ps =>
      joinStr (ps.filterMap fun p =>
        if p.type = "output_text" then p.text else Option.none)
    | MsgContent.absent => ""

/-- Model of `extractImagesFromMessage` (`api-service.js` lines 291–316):
`output_image` content parts first, then the side-channel `images`
array entries of type `image_url`. -/
def extractImagesFromMessage : Option Message → List String
  | Option.none => []
  | some m =>
    let fromContent :=
      match m.content with
      | MsgContent.parts ps =>
        ps.filterMap fun p =>
          if p.type = "output_image" then p.imageUrl else Option.none
      | _ => []
    let fromImages :=
      match m.images with
      | some imgs =>
        imgs.filterMap fun i =>
          if i.type = "image_url" then i.url else Option.none
      | Option.none => []
    fromContent ++ fromImages

/-! ## The streaming assemblers of `app.js` and the legacy script -/

/-- The closure state of one streaming handler: `assistantMessageDiv`
is modelled by the displayed text of the message element it points to
(`none` while no element has been created), next to
`assistantContent` and `assistantImages`. -/
structure AsmState where
  assistantMessageDiv : Option String
  assistantContent : String
  assistantImages : List String
deriving Repr, DecidableEq

/-- Handler state before the first chunk arrives. -/
def asmInit : AsmState := ⟨Option.none, "", []⟩

/-- Appending one text fragment: `assistantContent += s`, create the
message element if absent, then repaint it with the running content. -/
def appendTextFragment (st : AsmState) (s : String) : AsmState :=
  let c := st.assistantContent ++ s
  { st with assistantContent := c, assistantMessageDiv := some c }

/-- Body of `for (const part of delta.content)` shared by the
handlers: an `output_text` part appends its text, an `output_image`
part records its URL. -/
def contentPartStep (st : AsmState) (p : ContentPart) : AsmState :=
  let st1 :=
    if p.type = "output_text" then
      match p.text with
      | some t => appendTextFragment st t
      | Option.none => st
    else st
  if p.type = "output_image" then
    match p.imageUrl with
    | some u => { st1 with assistantImages := st1.assistantImages ++ [u] }
    | Option.none => st1
  else st1

/-- The `onChunk` handler of `handleStreamingResponse` (`app.js` lines
438–470) on a non-fallback payload.  It reads `chunk.choices?.[0]`
only.  A string `delta.content` enters the first branch; the
`delta?.content?.length` loop then iterates the characters of that
string, none of which carries a `.type`, so the loop acts only on
array content. -/
def handleStreamingResponseStep (st : AsmState) (c : Chunk) : AsmState :=
  match c.choices.head?.bind Choice.delta with
  | Option.none => st
  | some d =>
    let st1 :=
      match d.content with
      | MsgContent.str s => appendTextFragment st s
      | _ => st
    match d.content with
    | MsgContent.parts ps => ps.foldl contentPartStep st1
    | _ => st1

/-- Body of `for (const img of delta.images)` in
`handleStreamingImageResponse` (`app.js` lines 531–539): record the
URL and create the message element, initially blank, if absent. -/
def imageEntryStep (s : AsmState) (i : ImgEntry) : AsmState :=
  if i.type = "image_url" then
    match i.url with
    | some u =>
      let s1 := { s with assistantImages := s.assistantImages ++ [u] }
      match s1.assistantMessageDiv with
      | Option.none => { s1 with assistantMessageDiv := some "" }
      | some _ => s1
    | Option.none => s
  else s

/-- Body of `for (const choice of chunk.choices)` in
`handleStreamingImageResponse` (`app.js` lines 527–557): harvest
`delta.images`, then the structured content parts. -/
def imageChoiceStep (st : AsmState) (ch : Choice) : AsmState :=
  match ch.delta with
  | Option.none => st
  | some d =>
    let st1 :=
      match d.images with
      | some imgs => imgs.foldl imageEntryStep st
      | Option.none => st
    match d.content with
    | MsgContent.parts ps => ps.foldl contentPartStep st1
    | _ => st1

/-- The `onChunk` handler of `handleStreamingImageResponse` (`app.js`
lines 512–557) on a non-fallback payload: every choice is visited. -/
def handleStreamingImageResponseStep (st : AsmState) (c : Chunk) : AsmState :=
  c.choices.foldl imageChoiceStep st

/-- The `onChunk` handler of the legacy `runChat` (unnamed legacy
script, lines 1755–1799): like `handleStreamingResponseStep` but it
first checks `choices[0].finish_reason` and, on `content_filter` with
no message element yet, creates the element showing the blocked
sentinel. -/
def runChatChunkStep (st : AsmState) (c : Chunk) : AsmState :=
  let fin := c.choices.head?.bind Choice.finish_reason
  let st0 :=
    if fin = some "content_filter" then
      match st.assistantMessageDiv with
      | Option.none =>
        { st with assistantMessageDiv := some "[Blocked by content filter]" }
      | some _ => st
    else st
  match c.choices.head?.bind Choice.delta with
  | Option.none => st0
  | some d =>
    let st1 :=
      match d.content with
      | MsgContent.str s => appendTextFragment st0 s
      | _ => st0
    match d.content with
    | MsgContent.parts ps => ps.foldl contentPartStep st1
    | _ => st1

/-- Text fragments of one choice in the structured shape the handlers
read from `delta.content` arrays. -/
def choiceText (ch : Choice) : String :=
  match ch.delta with
  | Option.none => ""
  | some d =>
    match d.content with
    | MsgContent.parts ps =>
      joinStr (ps.filterMap fun p =>
        if p.type = "output_text" then p.text else Option.none)
    | _ => ""

/-- Image references of one choice, in the order the image handler
collects them: `delta.images` entries first, then `output_image`
content parts. -/
def choiceImgs (ch : Choice) : List String :=
  match ch.delta with
  | Option.none => []
  | some d =>
    (match d.images with
     | some imgs =>
       imgs.filterMap fun i => if i.type = "image_url" then i.url else Option.none
     | Option.none => []) ++
    (match d.content with
     | MsgContent.parts ps =>
       ps.filterMap fun p =>
         if p.type = "output_image" then p.imageUrl else Option.none
     | _ => [])

/-! ## Conversation history and regeneration store -/

/-- One message of `ChatManager.messageHistory`. -/
structure Msg where
  role : String
  content : String
  images : List String
deriving Repr, DecidableEq

/-- One stored response version (an entry of `regenerationHistory`). -/
structure Response where
  content : String
  images : List String
deriving Repr, DecidableEq

/-- The user message kept for regeneration. -/
structure UserMsg where
  content : String
  images : List String
deriving Repr, DecidableEq

/-- The state of `RegenerationManager`
(`src/js/regeneration-manager.js`): the version list, the cursor
(`-1` when empty, as in the source), and the stored user message. -/
structure RegenState where
  regenerationHistory : List Response
  currentResponseIndex : Int
  lastUserMessage : Option UserMsg
deriving Repr, DecidableEq

/-- Constructor state of `RegenerationManager`. -/
def regenInit : RegenState := ⟨[], -1, Option.none⟩

/-- Model of `storeLastUserMessage` (`regeneration-manager.js` lines 36–46):
drop the whole version list and store the new user message. -/
def storeLastUserMessage (u : UserMsg) : RegenState :=
  ⟨[], -1, some u⟩

/-- Model of `addResponseToHistory` (`regeneration-manager.js` lines 53–65):
push a version and move the cursor to the new last index. -/
def addResponseToHistory (st : RegenState) (content : String)
    (images : List String) : RegenState :=
  let hist := st.regenerationHistory ++ [⟨content, images⟩]
  { st with regenerationHistory := hist,
            currentResponseIndex := (hist.length : Int) - 1 }

/-- Walk a reversed history and overwrite the first assistant message
found (the `for (let i = length-1; ...)` loop of
`updateChatHistoryWithCurrentResponse`, lines 159–165). -/
def updateFirstAssistantRev (r : Response) : List Msg → List Msg
  | [] => []
  | m :: ms =>
    if m.role = "assistant" then
      { m with content := r.content, images := r.images } :: ms
    else m :: updateFirstAssistantRev r ms

/-- Overwrite the last assistant message of the chat history with a
stored response. -/
def updateLastAssistantMsg (hist : List Msg) (r : Response) : List Msg :=
  (updateFirstAssistantRev r hist.reverse).reverse

/-- Model of `updateChatHistoryWithCurrentResponse` (`regeneration-manager.js`
lines 151–170). -/
def updateChatHistoryWithCurrentResponse (rg : RegenState)
    (hist : List Msg) : List Msg :=
  if 0 ≤ rg.currentResponseIndex ∧
      rg.currentResponseIndex < (rg.regenerationHistory.length : Int) then
    match rg.regenerationHistory.get? rg.currentResponseIndex.toNat with
    | some r => updateLastAssistantMsg hist r
    | Option.none => hist
  else hist

/-- Model of `displayCurrentResponse` (`regeneration-manager.js` lines
135–146), tracked through its effect on the chat history (the
`onResponseChanged` callback repaints the same content in the DOM). -/
def displayCurrentResponse (rg : RegenState) (hist : List Msg) : List Msg :=
  if 0 ≤ rg.currentResponseIndex ∧
      rg.currentResponseIndex < (rg.regenerationHistory.length : Int) then
    updateChatHistoryWithCurrentResponse rg hist
  else hist

/-- Model of `showPreviousResponse` (`regeneration-manager.js` lines 113–119). -/
def showPreviousResponse (rg : RegenState) (hist : List Msg) :
    RegenState × List Msg :=
  if 0 < rg.currentResponseIndex then
    let rg1 := { rg with currentResponseIndex := rg.currentResponseIndex - 1 }
    (rg1, displayCurrentResponse rg1 hist)
  else (rg, hist)

/-- Model of `showNextResponse` (`regeneration-manager.js` lines 124–130). -/
def showNextResponse (rg : RegenState) (hist : List Msg) :
    RegenState × List Msg :=
  if rg.currentResponseIndex < (rg.regenerationHistory.length : Int) - 1 then
    let rg1 := { rg with currentResponseIndex := rg.currentResponseIndex + 1 }
    (rg1, displayCurrentResponse rg1 hist)
  else (rg, hist)

/-- The pre-work of `handleRegenerateResponse` (`app.js` lines
631–646): remove the trailing assistant message from history and UI
before re-running the pipeline. -/
def removeTrailingAssistant (hist : List Msg) : List Msg :=
  match hist.getLast? with
  | some m => if m.role = "assistant" then hist.dropLast else hist
  | Option.none => hist

/-- Model of `regenerateLastResponse` (`regeneration-manager.js` lines 97–108)
wired to `onRegenerateRequested = handleRegenerateResponse`
(`app.js` lines 620–659): with no stored user message it returns
before invoking the callback.  The boolean reports whether a new
request pipeline was started. -/
def regenerateLastResponse (rg : RegenState) (hist : List Msg) :
    RegenState × List Msg × Bool :=
  match rg.lastUserMessage with
  | Option.none => (rg, hist, false)
  | some _ => (rg, removeTrailingAssistant hist, true)

/-- The completion (`onDone`) callback of `handleStreamingResponse`
(`app.js` lines 471–486): overwrite the last history entry with the
accumulated content and images (whatever they are — the leading
image repaint touches only the DOM) and push them, unmodified, as a
new response version. -/
def streamOnDone (st : AsmState) (hist : List Msg) (rg : RegenState) :
    List Msg × RegenState :=
  let hist1 :=
    match hist.getLast? with
    | some m =>
      hist.set (hist.length - 1)
        { m with content := st.assistantContent, images := st.assistantImages }
    | Option.none => hist
  (hist1, addResponseToHistory rg st.assistantContent st.assistantImages)

/-- The completion callback of `handleStreamingImageResponse`
(`app.js` lines 558–564): an empty accumulated text falls back to the
generated-images caption before the version is pushed. -/
def imageStreamOnDone (st : AsmState) (rg : RegenState) : RegenState :=
  let text :=
    if st.assistantContent = "" then
      "Generated " ++ toString st.assistantImages.length ++ " image(s):"
    else st.assistantContent
  addResponseToHistory rg text st.assistantImages

/-- Model of `handleNonStreamingResponse` (`app.js` lines 492–499): extract
from `choices[0].message`, fall back to the `[Empty response]`
sentinel when the text is empty, display and push. -/
def handleNonStreamingResponse (json : Chunk) (hist : List Msg)
    (rg : RegenState) : List Msg × RegenState :=
  let content := extractTextFromMessage (json.choices.head?.bind Choice.message)
  let images := extractImagesFromMessage (json.choices.head?.bind Choice.message)
  let shown := if content = "" then "[Empty response]" else content
  (hist ++ [⟨"assistant", shown, images⟩], addResponseToHistory rg shown images)

/-! ## Session control (`APIService`) -/

/-- The `APIService` fields driving session control, with controller
identities drawn from `nextId`. -/
structure ApiState where
  currentController : Option Nat
  streamingActive : Bool
  nextId : Nat
deriving Repr, DecidableEq

/-- Externally visible actions of the session layer. -/
inductive ApiEvent where
  | abortSignal (id : Nat)
  | byteProcessed (sessionId : Nat) (b : Nat)
deriving Repr, DecidableEq

/-- Model of `abortActive` (`api-service.js` lines 140–154): signal the current
controller if one exists, then clear both fields.  (With
`reason && throwError` the code then throws; fired from the timeout
timer that error lands in an empty call stack.) -/
def abortActive (st : ApiState) : ApiState × List ApiEvent :=
  let evs :=
    match st.currentController with
    | some c => [ApiEvent.abortSignal c]
    | Option.none => []
  ({ st with currentController := Option.none, streamingActive := false }, evs)

/-- Model of `beginStream` (`api-service.js` lines 124–133): abort any active
session first, then install a fresh controller and mark the session
active.  (The deadline timer it schedules is the subject of C7.) -/
def beginStream (st : ApiState) : ApiState × List ApiEvent :=
  let a := abortActive st
  ({ currentController := some st.nextId, streamingActive := true,
     nextId := st.nextId + 1 }, a.2)

/-- Model of `cleanupStreamState` (`api-service.js` lines 159–162): clears the
fields but — unlike the legacy script — cancels no timer. -/
def cleanupStreamState (st : ApiState) : ApiState :=
  { st with streamingActive := false, currentController := Option.none }

/-- The visible event trace of `handleStreamingResponse` (`app.js`
lines 430–438): `beginStream` runs to completion before
`sendChatCompletion` is issued, so all response bytes are processed
after it returns. -/
def sessionTrace (st : ApiState) (bytes : List Nat) : List ApiEvent :=
  let b := beginStream st
  b.2 ++ bytes.map (ApiEvent.byteProcessed (b.1.currentController.getD 0))

/-- One result of `reader.read()` as seen by `pump` in `readSSE`: a
byte chunk, a normal end of input, or a rejection (which is what an
abort of the in-flight fetch produces). -/
inductive ReadEvent where
  | data (bytes : List Nat)
  | eof
  | failure
deriving Repr, DecidableEq

/-- The whole `pump` recursion of `readSSE` (`api-service.js` lines
84–117): the payloads delivered to `onChunk` paired with whether
`onDone` was invoked.  A rejected read reaches the `.catch` clause,
which invokes `onDone(err)` unconditionally — there is no check that
the session is still active. -/
def readSSEloop {α : Type} (parse : List Char → Option α) :
    SSEState → List ReadEvent → List α × Bool
  | _, [] => ([], false)
  | st, ReadEvent.data bs :: rest =>
    let r := processChunkBytes parse st bs
    if r.1.done then (r.2, true)
    else
      let k := readSSEloop parse r.1 rest
      (r.2 ++ k.1, k.2)
  | _, ReadEvent.eof :: _ => ([], true)
  | _, ReadEvent.failure :: _ => ([], true)

/-- The legacy script's stream-state fields
(unnamed legacy script, lines 1548–1567): it also tracks the deadline
timer handle, which its `cleanupStreamState` clears. -/
structure LegacyApiState where
  currentController : Option Nat
  streamingActive : Bool
  timeoutHandle : Option Nat
deriving Repr, DecidableEq

/-- Legacy `cleanupStreamState` (lines 1560–1567): `clearTimeout` on
the stored handle, so a completed stream's timer can never fire. -/
def cleanupStreamStateLegacy (st : LegacyApiState) : LegacyApiState :=
  { st with streamingActive := false, timeoutHandle := Option.none }

/-- One whole `handleStreamingResponse` run at the store level: the
read events drive `readSSE`; the payloads it delivers are folded
through the chunk handler, and whenever `readSSE` invoked `onDone` —
also on a rejected read — the completion callback applies its finalize
effects. -/
def handleStreamingRun (parse : List Char → Option Chunk)
    (evs : List ReadEvent) (hist : List Msg) (rg : RegenState) :
    List Msg × RegenState :=
  let r := readSSEloop parse sseInit evs
  let st := r.1.foldl handleStreamingResponseStep asmInit
  if r.2 then streamOnDone st hist rg else (hist, rg)

/-- A two-choice payload whose text fragment sits in the second
choice: `{"choices":[{},{"delta":{"content":[{"type":"output_text",
"text":"X"}]}}]}`. -/
def twoChoiceChunk : Chunk :=
  ⟨[⟨Option.none, Option.none, Option.none⟩,
    ⟨some ⟨MsgContent.parts [⟨"output_text", some "X", Option.none⟩],
      Option.none⟩, Option.none, Option.none⟩]⟩

/-! ## Claim C4: the content-filter sentinel -/

/-- A payload whose only choice carries `finish_reason:
"content_filter"` and no delta. -/
def filterChunk : Chunk :=
  ⟨[⟨Option.none, Option.none, some "content_filter"⟩]⟩

/-- A payload whose second (non-first) choice carries the
content-filter finish reason. -/
def filterChunkSecond : Chunk :=
  ⟨[⟨Option.none, Option.none, Option.none⟩,
    ⟨Option.none, Option.none, some "content_filter"⟩]⟩

/-! ## Theorems -/

theorem utf8DecodeChunk_append (pending : List Nat) (a b : List Nat) :
    utf8DecodeChunk pending (a ++ b) =
      ((utf8DecodeChunk (utf8DecodeChunk pending a).1 b).1,
       (utf8DecodeChunk pending a).2 ++ (utf8DecodeChunk (utf8DecodeChunk pending a).1 b).2) := by
  induction a generalizing pending with
  | nil => simp [utf8DecodeChunk]
  | cons x xs ih =>
    simp only [List.cons_append, utf8DecodeChunk, List.append_eq]
    rw [ih]
    simp [List.append_assoc]

theorem splitAtDelim_eq (buf pre post : List Char)
    (h : splitAtDelim buf = some (pre, post)) :
    buf = pre ++ '\n' :: '\n' :: post := by
  induction buf generalizing pre post with
  | nil => simp [splitAtDelim] at h
  | cons c1 tl ih =>
    cases tl with
    | nil => simp [splitAtDelim] at h
    | cons c2 rest =>
      by_cases hnl : c1 = '\n' ∧ c2 = '\n'
      · rw [splitAtDelim, if_pos hnl] at h
        rw [Option.some_inj, Prod.mk.injEq] at h
        obtain ⟨h1, h2⟩ := h
        subst h1; subst h2
        simp [hnl.1, hnl.2]
      · rw [splitAtDelim, if_neg hnl] at h
        cases hrec : splitAtDelim (c2 :: rest) with
        | some pq =>
          obtain ⟨p, q⟩ := pq
          rw [hrec] at h
          rw [Option.some_inj, Prod.mk.injEq] at h
          obtain ⟨h1, h2⟩ := h
          subst h1; subst h2
          have := ih p q hrec
          rw [this]
          simp
        | none => rw [hrec] at h; simp at h

theorem splitAtDelim_length_lt (buf pre post : List Char)
    (h : splitAtDelim buf = some (pre, post)) :
    post.length + 2 ≤ buf.length := by
  have := splitAtDelim_eq buf pre post h
  subst this
  simp

/-- Appending text cannot change an already-found frame boundary. -/
theorem splitAtDelim_append (buf pre post extra : List Char)
    (h : splitAtDelim buf = some (pre, post)) :
    splitAtDelim (buf ++ extra) = some (pre, post ++ extra) := by
  induction buf generalizing pre post with
  | nil => simp [splitAtDelim] at h
  | cons c1 tl ih =>
    cases tl with
    | nil => simp [splitAtDelim] at h
    | cons c2 rest =>
      by_cases hnl : c1 = '\n' ∧ c2 = '\n'
      · rw [splitAtDelim, if_pos hnl] at h
        rw [Option.some_inj, Prod.mk.injEq] at h
        obtain ⟨h1, h2⟩ := h
        subst h1; subst h2
        show splitAtDelim (c1 :: c2 :: (rest ++ extra)) = _
        rw [splitAtDelim, if_pos hnl]
      · rw [splitAtDelim, if_neg hnl] at h
        cases hrec : splitAtDelim (c2 :: rest) with
        | some pq =>
          obtain ⟨p, q⟩ := pq
          rw [hrec] at h
          rw [Option.some_inj, Prod.mk.injEq] at h
          obtain ⟨h1, h2⟩ := h
          subst h1; subst h2
          have hih : splitAtDelim ((c2 :: rest) ++ extra) = some (p, q ++ extra) :=
            ih p q hrec
          show splitAtDelim (c1 :: c2 :: (rest ++ extra)) = _
          rw [splitAtDelim, if_neg hnl]
          rw [show c2 :: (rest ++ extra) = (c2 :: rest) ++ extra from rfl, hih]
        | none => rw [hrec] at h; simp at h

theorem scanBufAux_nil {α : Type} (parse : List Char → Option α) (f : Nat) :
    scanBufAux parse f [] = ([], [], false) := by
  cases f with
  | zero => rfl
  | succ g => simp [scanBufAux, splitAtDelim]

/-- Fuel irrelevance: any fuel at least the buffer length computes the
same scan result. -/
theorem scanBufAux_fuel {α : Type} (parse : List Char → Option α) :
    ∀ n, ∀ f1 f2 buf, buf.length = n → buf.length ≤ f1 → buf.length ≤ f2 →
      scanBufAux parse f1 buf = scanBufAux parse f2 buf := by
  intro n
  induction n using Nat.strong_induction_on with
  | _ n ih =>
    intro f1 f2 buf hn h1 h2
    cases buf with
    | nil => rw [scanBufAux_nil, scanBufAux_nil]
    | cons c tl =>
      cases f1 with
      | zero => simp at h1
      | succ g1 =>
        cases f2 with
        | zero => simp at h2
        | succ g2 =>
          simp only [scanBufAux]
          cases hsp : splitAtDelim (c :: tl) with
          | none => simp
          | some pr =>
            obtain ⟨f, rest⟩ := pr
            simp only
            have hlt := splitAtDelim_length_lt _ _ _ hsp
            simp only [List.length_cons] at hlt h1 h2 hn
            have heq : scanBufAux parse g1 rest = scanBufAux parse g2 rest :=
              ih rest.length (by omega) g1 g2 rest rfl (by omega) (by omega)
            rw [heq]

/-- Single-step unfolding of `scanBuffer`. -/
theorem scanBuffer_step {α : Type} (parse : List Char → Option α) (buf : List Char) :
    scanBuffer parse buf =
      match splitAtDelim buf with
      | none => (buf, [], false)
      | some (f, rest) =>
        let pr := processFrame parse f
        if pr.2 then (rest, pr.1, true)
        else
          let r := scanBuffer parse rest
          (r.1, pr.1 ++ r.2.1, r.2.2) := by
  unfold scanBuffer
  cases buf with
  | nil => simp [scanBufAux_nil, splitAtDelim]
  | cons c tl =>
    simp only [List.length_cons, scanBufAux]
    cases hsp : splitAtDelim (c :: tl) with
    | none => simp
    | some pr =>
      obtain ⟨f, rest⟩ := pr
      simp only
      have hlt := splitAtDelim_length_lt _ _ _ hsp
      simp only [List.length_cons] at hlt
      have heq : scanBufAux parse tl.length rest = scanBufAux parse rest.length rest :=
        scanBufAux_fuel parse rest.length _ _ rest rfl (by omega) (by omega)
      rw [heq]

/-- Scanning a buffer extended by further text first yields exactly the
frames of the original buffer, then continues on the residual: the
buffer-and-rescan loop cannot see chunk boundaries. -/
theorem scanBuffer_append {α : Type} (parse : List Char → Option α) :
    ∀ n buf extra, buf.length = n →
      scanBuffer parse (buf ++ extra) =
        (if (scanBuffer parse buf).2.2 then
          ((scanBuffer parse buf).1 ++ extra, (scanBuffer parse buf).2.1, true)
        else
          ((scanBuffer parse ((scanBuffer parse buf).1 ++ extra)).1,
           (scanBuffer parse buf).2.1 ++
             (scanBuffer parse ((scanBuffer parse buf).1 ++ extra)).2.1,
           (scanBuffer parse ((scanBuffer parse buf).1 ++ extra)).2.2)) := by
  intro n
  induction n using Nat.strong_induction_on with
  | _ n ih =>
    intro buf extra hn
    cases hsp : splitAtDelim buf with
    | none =>
      rw [scanBuffer_step parse buf, hsp]
      simp
    | some pr =>
      obtain ⟨f, rest⟩ := pr
      have hbuf := scanBuffer_step parse buf
      rw [hsp] at hbuf
      simp only at hbuf
      have hlt := splitAtDelim_length_lt _ _ _ hsp
      have hsplit2 := splitAtDelim_append buf f rest extra hsp
      have hbufe := scanBuffer_step parse (buf ++ extra)
      rw [hsplit2] at hbufe
      simp only at hbufe
      by_cases hd : (processFrame parse f).2
      · rw [if_pos hd] at hbuf hbufe
        rw [hbuf, hbufe]
        simp
      · rw [if_neg hd] at hbuf hbufe
        have hihr := ih rest.length (by omega) rest extra rfl
        rw [hbuf, hbufe]
        by_cases hdr : (scanBuffer parse rest).2.2
        · rw [if_pos hdr] at hihr
          simp only [hdr, if_pos]
          rw [hihr]
        · rw [if_neg hdr] at hihr
          simp only [hdr, if_neg, Bool.false_eq_true, not_false_iff]
          rw [hihr]
          simp [List.append_assoc]

/-- When the scan did not stop at `[DONE]`, its residual buffer holds
no complete frame. -/
theorem scanBuffer_residual {α : Type} (parse : List Char → Option α) :
    ∀ n buf, buf.length = n → (scanBuffer parse buf).2.2 = false →
      splitAtDelim (scanBuffer parse buf).1 = none := by
  intro n
  induction n using Nat.strong_induction_on with
  | _ n ih =>
    intro buf hn hnd
    cases hsp : splitAtDelim buf with
    | none =>
      rw [scanBuffer_step parse buf, hsp] at hnd ⊢
      simpa using hsp
    | some pr =>
      obtain ⟨f, rest⟩ := pr
      have hbuf := scanBuffer_step parse buf
      rw [hsp] at hbuf
      simp only at hbuf
      have hlt := splitAtDelim_length_lt _ _ _ hsp
      by_cases hd : (processFrame parse f).2
      · rw [if_pos hd] at hbuf
        rw [hbuf] at hnd
        simp at hnd
      · rw [if_neg hd] at hbuf
        rw [hbuf] at hnd ⊢
        exact ih rest.length (by omega) rest rfl hnd

theorem sseInit_reachable : sseInit.reachable := Or.inr rfl

/-- Chunk-composition: processing `a ++ b` as one chunk delivers the
same payloads as processing `a` then `b`, and (unless `[DONE]` was hit)
leaves the identical state. -/
theorem processChunkBytes_append {α : Type} (parse : List Char → Option α)
    (st : SSEState) (a b : List Nat) :
    (processChunkBytes parse st (a ++ b)).2 =
      (processChunkBytes parse st a).2 ++
        (processChunkBytes parse (processChunkBytes parse st a).1 b).2 ∧
    (processChunkBytes parse st (a ++ b)).1.done =
      (processChunkBytes parse (processChunkBytes parse st a).1 b).1.done ∧
    ((processChunkBytes parse st (a ++ b)).1.done = false →
      (processChunkBytes parse st (a ++ b)).1 =
        (processChunkBytes parse (processChunkBytes parse st a).1 b).1) := by
  by_cases hdone : st.done
  · simp [processChunkBytes, hdone]
  · simp only [processChunkBytes, if_neg hdone]
    rw [utf8DecodeChunk_append]
    set d1 := utf8DecodeChunk st.pending a with hd1
    set d2 := utf8DecodeChunk d1.1 b with hd2
    simp only
    rw [← List.append_assoc]
    set buf1 := st.buffer ++ d1.2 with hbuf1
    have hS := scanBuffer_append parse buf1.length buf1 d2.2 rfl
    by_cases hfirst : (scanBuffer parse buf1).2.2
    · -- the first chunk already saw [DONE]
      rw [if_pos hfirst] at hS
      simp [hS, hfirst]
    · rw [if_neg hfirst] at hS
      simp only [Bool.not_eq_true] at hfirst
      simp [hS, hfirst]

theorem processChunkBytes_done {α : Type} (parse : List Char → Option α)
    (st : SSEState) (bytes : List Nat) (h : st.done = true) :
    processChunkBytes parse st bytes = (st, []) := by
  simp [processChunkBytes, h]

/-- A terminated state ignores every later chunk. -/
theorem runChunks_done {α : Type} (parse : List Char → Option α) :
    ∀ (cs : List (List Nat)) (st : SSEState), st.done = true →
      runChunks parse st cs = [] := by
  intro cs
  induction cs with
  | nil => intro st _; rfl
  | cons x xs ih =>
    intro st h2
    simp [runChunks, processChunkBytes_done parse st x h2, ih st h2]

/-- Processing the concatenation of all chunks in one go delivers the
same payload sequence as processing them one at a time. -/
theorem runChunks_flatten {α : Type} (parse : List Char → Option α) :
    ∀ chunks st, st.reachable →
      runChunks parse st chunks = runChunks parse st [chunks.flatten] := by
  intro chunks
  induction chunks with
  | nil =>
    intro st hreach
    simp only [runChunks, List.flatten_nil]
    by_cases hdone : st.done
    · simp [processChunkBytes, hdone]
    · rcases hreach with h | h
      · exact absurd h hdone
      · have hdec : utf8DecodeChunk st.pending [] = (st.pending, []) := rfl
        have hscan : scanBuffer parse st.buffer = (st.buffer, [], false) := by
          rw [scanBuffer_step parse st.buffer, h]
        simp [processChunkBytes, hdone, hdec, hscan]
  | cons c cs ih =>
    intro st hreach
    have hH := processChunkBytes_append parse st c cs.flatten
    simp only [runChunks, List.flatten_cons]
    rw [hH.1]
    simp only [List.append_nil, List.append_cancel_left_eq]
    by_cases hdone1 : (processChunkBytes parse st c).1.done
    · rw [runChunks_done parse cs _ hdone1]
      rw [processChunkBytes_done parse _ cs.flatten hdone1]
    · have hstf : st.done = false := by
        by_contra hc
        simp only [Bool.not_eq_false] at hc
        have : processChunkBytes parse st c = (st, []) := by
          simp [processChunkBytes, hc]
        rw [this] at hdone1
        exact hdone1 hc
      have hst1 : (processChunkBytes parse st c).1.reachable := by
        right
        simp only [processChunkBytes, hstf, Bool.false_eq_true, if_false] at hdone1 ⊢
        apply scanBuffer_residual parse _ _ rfl
        simpa using hdone1
      rw [ih _ hst1]
      simp [runChunks]

theorem dropWhile_eq_self_of_head {l : List Char}
    (h : ¬isJsWs (l.headD ' ')) : l.dropWhile isJsWs = l := by
  cases l with
  | nil => rfl
  | cons c tl =>
    simp only [List.headD_cons] at h
    simp [List.dropWhile_cons, h]

theorem headD_reverse (l : List Char) (c : Char) :
    l.reverse.headD c = l.getLastD c := by
  rw [List.headD_eq_head?_getD, List.getLastD_eq_getLast?,
    List.getLast?_eq_head?_reverse]

theorem dropWhile_reverse_eq_self {l : List Char}
    (h : ¬isJsWs (l.getLastD ' ')) : l.reverse.dropWhile isJsWs = l.reverse := by
  apply dropWhile_eq_self_of_head
  rw [headD_reverse]
  exact h

theorem trimChars_eq_self {d : List Char}
    (hh : ¬isJsWs (d.headD ' ')) (hl : ¬isJsWs (d.getLastD ' ')) :
    trimChars d = d := by
  unfold trimChars
  rw [dropWhile_eq_self_of_head hh, dropWhile_reverse_eq_self hl,
    List.reverse_reverse]

theorem splitOnNl_no_nl {d : List Char} (h : ¬d.contains '\n') :
    splitOnNl d = [d] := by
  induction d with
  | nil => rfl
  | cons c tl ih =>
    simp only [List.contains_cons, Bool.or_eq_true, not_or] at h
    have hc : ¬c = '\n' := by
      intro he
      exact h.1 (by simp [he])
    rw [splitOnNl]
    simp only [if_neg hc, ih h.2]

theorem splitAtDelim_of_no_nl {pre : List Char} (rest : List Char)
    (h : ¬pre.contains '\n') :
    splitAtDelim (pre ++ '\n' :: '\n' :: rest) = some (pre, rest) := by
  induction pre with
  | nil => simp [splitAtDelim]
  | cons c tl ih =>
    simp only [List.contains_cons, Bool.or_eq_true, not_or] at h
    have hc : ¬c = '\n' := by
      intro he
      exact h.1 (by simp [he])
    have htl := ih h.2
    cases hsh : tl ++ '\n' :: '\n' :: rest with
    | nil => simp at hsh
    | cons c2 tl2 =>
      rw [List.cons_append, hsh, splitAtDelim]
      have hcond : ¬(c = '\n' ∧ c2 = '\n') := fun hcc => hc hcc.1
      rw [if_neg hcond, ← hsh, htl]

/-- Processing one well-formed `data:` frame yields exactly the parse
result of its payload (dropped when `parse` fails) and never signals
`[DONE]`. -/
theorem processFrame_data {α : Type} (parse : List Char → Option α)
    (d : List Char) (hc : cleanPayload d = true) :
    processFrame parse ('d' :: 'a' :: 't' :: 'a' :: ':' :: ' ' :: d) =
      ((parse d).toList, false) := by
  simp only [cleanPayload, Bool.and_eq_true, Bool.not_eq_true', decide_eq_true_eq,
    Bool.not_eq_true] at hc
  obtain ⟨⟨⟨⟨hne, hh⟩, hl⟩, hnl⟩, hds⟩ := hc
  have hnonempty : d ≠ [] := by
    intro he
    rw [he] at hne
    simp at hne
  have hline : ¬('d' :: 'a' :: 't' :: 'a' :: ':' :: ' ' :: d).contains '\n' := by
    simp only [List.contains_cons, Bool.or_eq_true, not_or]
    refine ⟨by simp, by simp, by simp, by simp, by simp, by simp, ?_⟩
    simpa using hnl
  unfold processFrame
  rw [splitOnNl_no_nl hline]
  have htrim : trimChars ('d' :: 'a' :: 't' :: 'a' :: ':' :: ' ' :: d) =
      'd' :: 'a' :: 't' :: 'a' :: ':' :: ' ' :: d := by
    apply trimChars_eq_self
    · simp [isJsWs]
    · cases d with
      | nil => exact absurd rfl hnonempty
      | cons x xs =>
        simp only [List.getLastD_cons] at hl ⊢
        rw [hl]
        decide
  have htrim2 : trimChars (' ' :: d) = d := by
    have e1 : d.dropWhile isJsWs = d :=
      dropWhile_eq_self_of_head (by rw [hh]; decide)
    have e2 : d.reverse.dropWhile isJsWs = d.reverse :=
      dropWhile_reverse_eq_self (by rw [hl]; decide)
    unfold trimChars
    rw [show (' ' :: d).dropWhile isJsWs = d.dropWhile isJsWs by
      simp [List.dropWhile_cons, isJsWs]]
    rw [e1, e2, List.reverse_reverse]
  rw [processLines, htrim]
  have hpref : dataLabel.isPrefixOf ('d' :: 'a' :: 't' :: 'a' :: ':' :: ' ' :: d) = true := by
    simp [dataLabel, List.isPrefixOf]
  rw [if_pos hpref]
  simp only [List.drop_succ_cons, List.drop_zero, htrim2]
  rw [if_neg hds]
  cases hp : parse d with
  | none => simp [processLines]
  | some o => simp [processLines]

/-- Prepending one well-formed frame to the buffer delivers its parse
result first, then continues scanning the remaining text. -/
theorem scanBuffer_frame {α : Type} (parse : List Char → Option α)
    (d rest : List Char) (hc : cleanPayload d = true) :
    scanBuffer parse (sseFrame d ++ rest) =
      ((scanBuffer parse rest).1,
       (parse d).toList ++ (scanBuffer parse rest).2.1,
       (scanBuffer parse rest).2.2) := by
  have hline : ¬('d' :: 'a' :: 't' :: 'a' :: ':' :: ' ' :: d).contains '\n' := by
    simp only [cleanPayload, Bool.and_eq_true, Bool.not_eq_true', decide_eq_true_eq,
      Bool.not_eq_true] at hc
    simp only [List.contains_cons, Bool.or_eq_true, not_or]
    refine ⟨by simp, by simp, by simp, by simp, by simp, by simp, ?_⟩
    simpa using hc.1.2
  have harr : sseFrame d ++ rest =
      ('d' :: 'a' :: 't' :: 'a' :: ':' :: ' ' :: d) ++ '\n' :: '\n' :: rest := by
    simp [sseFrame]
  rw [harr, scanBuffer_step, splitAtDelim_of_no_nl rest hline]
  simp only [processFrame_data parse d hc]
  rfl

/-- ASCII round-trip through the streaming UTF-8 decoder. -/
theorem utf8DecodeChunk_ascii :
    ∀ l : List Char, (∀ c ∈ l, c.toNat < 0x80) →
      utf8DecodeChunk [] (l.map Char.toNat) = ([], l) := by
  intro l
  induction l with
  | nil => intro _; rfl
  | cons c tl ih =>
    intro h
    have hc : c.toNat < 0x80 := h c (by simp)
    have hstep : utf8Step [] c.toNat = ([], [c]) := by
      simp only [utf8Step, if_pos hc, Char.ofNat_toNat]
    simp only [List.map_cons, utf8DecodeChunk, hstep]
    rw [ih (fun x hx => h x (by simp [hx]))]
    rfl

/-- Claim C2: for every byte sequence, however it is partitioned into
chunks (even splitting the `"\n\n"` delimiter or a multi-byte UTF-8
character), `readSSE` delivers the same ordered sequence of parsed
payload objects to `onChunk` as when the whole sequence arrives as a
single chunk. -/
theorem readSSE_chunk_invariance {α : Type} (parse : List Char → Option α)
    (chunks : List (List Nat)) :
    runChunks parse sseInit chunks = runChunks parse sseInit [chunks.flatten] :=
  runChunks_flatten parse chunks sseInit sseInit_reachable

/-- Claim C5: a frame whose payload fails to parse is dropped without
aborting decoding — the valid frames before and after it are still
delivered to `onChunk`, in order. -/
theorem readSSE_malformed_frame_recovered {α : Type} (parse : List Char → Option α)
    (d1 d2 d3 : List Char) (a b : α)
    (h1 : cleanPayload d1 = true) (h2 : cleanPayload d2 = true)
    (h3 : cleanPayload d3 = true)
    (hascii : ∀ c ∈ sseFrame d1 ++ sseFrame d2 ++ sseFrame d3, Char.toNat c < 0x80)
    (hp1 : parse d1 = some a) (hp2 : parse d2 = none) (hp3 : parse d3 = some b) :
    runChunks parse sseInit
      [(sseFrame d1 ++ sseFrame d2 ++ sseFrame d3).map Char.toNat] = [a, b] := by
  have hdec := utf8DecodeChunk_ascii (sseFrame d1 ++ sseFrame d2 ++ sseFrame d3) hascii
  have hbase : scanBuffer parse ([] : List Char) = ([], [], false) := rfl
  have hscan : scanBuffer parse (sseFrame d1 ++ sseFrame d2 ++ sseFrame d3) =
      ([], [a, b], false) := by
    rw [List.append_assoc, scanBuffer_frame parse d1 _ h1]
    rw [show sseFrame d2 ++ sseFrame d3 = sseFrame d2 ++ (sseFrame d3 ++ []) by simp]
    rw [scanBuffer_frame parse d2 _ h2, scanBuffer_frame parse d3 _ h3]
    rw [hbase, hp1, hp2, hp3]
    rfl
  simp only [runChunks, processChunkBytes, sseInit, Bool.false_eq_true, if_false]
  rw [hdec]
  simp only [List.nil_append]
  rw [hscan]
  simp

theorem readSSE_malformed_frame_recovered_witness :
    runChunks wparse sseInit
      [(sseFrame ['1'] ++ sseFrame ['x'] ++ sseFrame ['3']).map Char.toNat] = [1, 3] :=
  readSSE_malformed_frame_recovered wparse ['1'] ['x'] ['3'] 1 3
    (by decide) (by decide) (by decide) (by decide) (by decide) (by decide) (by decide)

/-! ## Choice-processing lemmas (claim C1) -/

theorem foldl_contentPartStep_spec (ps : List ContentPart) : ∀ st : AsmState,
    (ps.foldl contentPartStep st).assistantContent =
      st.assistantContent ++ joinStr (ps.filterMap fun p =>
        if p.type = "output_text" then p.text else Option.none) ∧
    (ps.foldl contentPartStep st).assistantImages =
      st.assistantImages ++ (ps.filterMap fun p =>
        if p.type = "output_image" then p.imageUrl else Option.none) := by
  induction ps with
  | nil => intro st; simp [joinStr]
  | cons p rest ih =>
    intro st
    rw [List.foldl_cons]
    by_cases ht : p.type = "output_text"
    · have hi : ¬p.type = "output_image" := by rw [ht]; decide
      rw [List.filterMap_cons_none (f := fun p : ContentPart =>
        if p.type = "output_image" then p.imageUrl else Option.none) (by simp [hi])]
      cases hpt : p.text with
      | none =>
        rw [List.filterMap_cons_none (by simp [ht, hpt])]
        have hstep : contentPartStep st p = st := by
          simp [contentPartStep, ht, hi, hpt]
        rw [hstep]
        exact ih st
      | some t =>
        rw [List.filterMap_cons_some (b := t) (by simp [ht, hpt])]
        have hstep : contentPartStep st p =
            { st with assistantContent := st.assistantContent ++ t,
                      assistantMessageDiv := some (st.assistantContent ++ t) } := by
          simp [contentPartStep, ht, hi, hpt, appendTextFragment]
        rw [hstep]
        obtain ⟨ihc, ihi⟩ :=
          ih { st with assistantContent := st.assistantContent ++ t,
                       assistantMessageDiv := some (st.assistantContent ++ t) }
        refine ⟨?_, ?_⟩
        · rw [ihc]
          simp [joinStr, String.append_assoc]
        · rw [ihi]
    · rw [List.filterMap_cons_none (f := fun p : ContentPart =>
        if p.type = "output_text" then p.text else Option.none) (by simp [ht])]
      by_cases hi : p.type = "output_image"
      · cases hpu : p.imageUrl with
        | none =>
          have hstep : contentPartStep st p = st := by
            simp [contentPartStep, ht, hi, hpu]
          rw [hstep, List.filterMap_cons_none (by simp [hpu])]
          exact ih st
        | some u =>
          have hstep : contentPartStep st p =
              { st with assistantImages := st.assistantImages ++ [u] } := by
            simp [contentPartStep, ht, hi, hpu]
          rw [hstep, List.filterMap_cons_some (b := u) (by simp [hi, hpu])]
          obtain ⟨ihc, ihi⟩ :=
            ih { st with assistantImages := st.assistantImages ++ [u] }
          refine ⟨by rw [ihc], ?_⟩
          rw [ihi]
          simp
      · have hstep : contentPartStep st p = st := by
          simp [contentPartStep, ht, hi]
        rw [hstep, List.filterMap_cons_none (by simp [hi])]
        exact ih st

theorem foldl_imageEntryStep_spec (imgs : List ImgEntry) : ∀ st : AsmState,
    (imgs.foldl imageEntryStep st).assistantContent = st.assistantContent ∧
    (imgs.foldl imageEntryStep st).assistantImages =
      st.assistantImages ++ (imgs.filterMap fun i =>
        if i.type = "image_url" then i.url else Option.none) := by
  induction imgs with
  | nil => intro st; simp
  | cons i rest ih =>
    intro st
    rw [List.foldl_cons]
    by_cases hti : i.type = "image_url"
    · cases hu : i.url with
      | none =>
        have hstep : imageEntryStep st i = st := by
          simp [imageEntryStep, hti, hu]
        rw [hstep, List.filterMap_cons_none (by simp [hti, hu])]
        exact ih st
      | some u =>
        have hbase :
            (imageEntryStep st i).assistantContent = st.assistantContent ∧
            (imageEntryStep st i).assistantImages =
              st.assistantImages ++ [u] := by
          cases hdv : st.assistantMessageDiv <;>
            simp [imageEntryStep, hti, hu, hdv]
        obtain ⟨hbc, hbi⟩ := hbase
        obtain ⟨ihc, ihi⟩ := ih (imageEntryStep st i)
        rw [List.filterMap_cons_some (b := u) (by simp [hti, hu])]
        refine ⟨by rw [ihc, hbc], ?_⟩
        rw [ihi, hbi]
        simp
    · have hstep : imageEntryStep st i = st := by
        simp [imageEntryStep, hti]
      rw [hstep, List.filterMap_cons_none (by simp [hti])]
      exact ih st

theorem imageChoiceStep_spec (ch : Choice) (st : AsmState) :
    (imageChoiceStep st ch).assistantContent =
      st.assistantContent ++ choiceText ch ∧
    (imageChoiceStep st ch).assistantImages =
      st.assistantImages ++ choiceImgs ch := by
  cases hd : ch.delta with
  | none => simp [imageChoiceStep, choiceText, choiceImgs, hd]
  | some d =>
    have hst1 :
        ∀ st1 : AsmState,
          (match d.images with
            | some imgs => imgs.foldl imageEntryStep st1
            | Option.none => st1).assistantContent = st1.assistantContent ∧
          (match d.images with
            | some imgs => imgs.foldl imageEntryStep st1
            | Option.none => st1).assistantImages =
            st1.assistantImages ++ (match d.images with
              | some imgs => imgs.filterMap fun i =>
                  if i.type = "image_url" then i.url else Option.none
              | Option.none => []) := by
      intro st1
      cases hims : d.images with
      | none => simp
      | some imgs => exact foldl_imageEntryStep_spec imgs st1
    obtain ⟨h1c, h1i⟩ := hst1 st
    cases hc : d.content with
    | parts ps =>
      obtain ⟨h2c, h2i⟩ :=
        foldl_contentPartStep_spec ps
          (match d.images with
            | some imgs => imgs.foldl imageEntryStep st
            | Option.none => st)
      constructor
      · simp only [imageChoiceStep, hd, hc]
        rw [h2c, h1c]
        simp [choiceText, hd, hc]
      · simp only [imageChoiceStep, hd, hc]
        rw [h2i, h1i]
        simp [choiceImgs, hd, hc]
    | str s =>
      constructor
      · simp only [imageChoiceStep, hd, hc]
        rw [h1c]
        simp [choiceText, hd, hc]
      · simp only [imageChoiceStep, hd, hc]
        rw [h1i]
        simp [choiceImgs, hd, hc]
    | absent =>
      constructor
      · simp only [imageChoiceStep, hd, hc]
        rw [h1c]
        simp [choiceText, hd, hc]
      · simp only [imageChoiceStep, hd, hc]
        rw [h1i]
        simp [choiceImgs, hd, hc]

theorem foldl_imageChoiceStep_spec (chs : List Choice) : ∀ st : AsmState,
    (chs.foldl imageChoiceStep st).assistantContent =
      st.assistantContent ++ joinStr (chs.map choiceText) ∧
    (chs.foldl imageChoiceStep st).assistantImages =
      st.assistantImages ++ (chs.map choiceImgs).flatten := by
  induction chs with
  | nil => intro st; simp [joinStr]
  | cons ch rest ih =>
    intro st
    rw [List.foldl_cons]
    obtain ⟨hc, hi⟩ := imageChoiceStep_spec ch st
    obtain ⟨ihc, ihi⟩ := ih (imageChoiceStep st ch)
    refine ⟨?_, ?_⟩
    · rw [ihc, hc]
      simp [joinStr, String.append_assoc]
    · rw [ihi, hi]
      simp

/-- Claim C1, counterexample: on a payload with two choices whose
second choice carries the fragment `"X"`, the text-streaming handler
extracts nothing (its state is unchanged), while the image-streaming
handler — which does visit every choice — extracts `"X"` from the very
same payload. -/
theorem handleStreamingResponse_ignores_second_choice :
    handleStreamingResponseStep asmInit twoChoiceChunk = asmInit ∧
    1 < twoChoiceChunk.choices.length ∧
    (handleStreamingImageResponseStep asmInit twoChoiceChunk).assistantContent
      = "X" :=
  ⟨rfl, by decide, rfl⟩

/-- Claim C1 as amended: the image-streaming handler
(`handleStreamingImageResponse`) extracts text fragments and image
references from every choice, in order; the text-streaming handler
(`handleStreamingResponse`) reads only the choice at index 0 — its
result on any payload equals its result on that payload truncated to
its first choice. -/
theorem choice_processing_amended (st : AsmState) (c : Chunk) :
    handleStreamingResponseStep st c =
      handleStreamingResponseStep st ⟨c.choices.take 1⟩ ∧
    (handleStreamingImageResponseStep st c).assistantContent =
      st.assistantContent ++ joinStr (c.choices.map choiceText) ∧
    (handleStreamingImageResponseStep st c).assistantImages =
      st.assistantImages ++ (c.choices.map choiceImgs).flatten := by
  have hhead : (c.choices.take 1).head? = c.choices.head? := by
    cases c.choices <;> simp
  refine ⟨?_, (foldl_imageChoiceStep_spec c.choices st).1,
    (foldl_imageChoiceStep_spec c.choices st).2⟩
  simp only [handleStreamingResponseStep, hhead]

/-! ## Claim C3: the empty-response sentinel -/

/-- Claim C3, counterexample: a streaming run that accumulated no text
and no images finalizes by pushing the empty string as the response
version — not the `[Empty response]` sentinel. -/
theorem empty_stream_pushes_empty_string :
    ((streamOnDone asmInit [⟨"user", "hi", []⟩] regenInit).2).regenerationHistory
      = [⟨"", []⟩] ∧
    ("" : String) ≠ "[Empty response]" :=
  ⟨rfl, by decide⟩

/-- Claim C3 as amended: the streaming finalizer pushes the raw
accumulated text — the empty string when nothing accumulated — and
only the non-streaming handler substitutes the `[Empty response]`
sentinel when its extracted text is empty. -/
theorem empty_response_sentinel_amended (st : AsmState) (hist : List Msg)
    (rg : RegenState) (json : Chunk) (hist2 : List Msg) (rg2 : RegenState)
    (hempty : extractTextFromMessage (json.choices.head?.bind Choice.message)
      = "") :
    (streamOnDone st hist rg).2.regenerationHistory =
      rg.regenerationHistory ++ [⟨st.assistantContent, st.assistantImages⟩] ∧
    (handleNonStreamingResponse json hist2 rg2).2.regenerationHistory =
      rg2.regenerationHistory ++
        [⟨"[Empty response]",
          extractImagesFromMessage (json.choices.head?.bind Choice.message)⟩] := by
  constructor
  · simp [streamOnDone, addResponseToHistory]
  · simp [handleNonStreamingResponse, addResponseToHistory, hempty]

theorem empty_response_sentinel_amended_witness :
    (streamOnDone asmInit [] regenInit).2.regenerationHistory = [⟨"", []⟩] ∧
    (handleNonStreamingResponse ⟨[]⟩ [] regenInit).2.regenerationHistory =
      [⟨"[Empty response]", []⟩] := by
  have h := empty_response_sentinel_amended asmInit [] regenInit ⟨[]⟩ [] regenInit rfl
  exact ⟨h.1, h.2⟩

/-- Claim C4, counterexample: the refactored streaming handler ignores
`finish_reason` entirely — a content-filter frame with no accumulated
text leaves the state untouched and shows no sentinel; and even the
legacy handler ignores a content-filter reason on a non-first
choice. -/
theorem content_filter_ignored_counterexample :
    handleStreamingResponseStep asmInit filterChunk = asmInit ∧
    (handleStreamingResponseStep asmInit filterChunk).assistantMessageDiv
      = Option.none ∧
    runChatChunkStep asmInit filterChunkSecond = asmInit :=
  ⟨rfl, rfl, rfl⟩

/-- Claim C4 as amended: only the legacy `runChat` handler reacts to a
content filter, and only when the `content_filter` finish reason sits
on the first choice: if no message element exists yet it creates one
showing the `[Blocked by content filter]` sentinel, and processing
continues — a later text frame still appends to the running content. -/
theorem content_filter_legacy_amended (st : AsmState) (c : Chunk)
    (hdiv : st.assistantMessageDiv = Option.none)
    (hfin : c.choices.head?.bind Choice.finish_reason = some "content_filter")
    (hdelta : c.choices.head?.bind Choice.delta = Option.none) :
    (runChatChunkStep st c).assistantMessageDiv
      = some "[Blocked by content filter]" ∧
    (runChatChunkStep st c).assistantContent = st.assistantContent ∧
    ∀ s : String,
      (runChatChunkStep (runChatChunkStep st c)
        ⟨[⟨some ⟨MsgContent.str s, Option.none⟩, Option.none,
           Option.none⟩]⟩).assistantContent = st.assistantContent ++ s := by
  have hstep : runChatChunkStep st c =
      { st with assistantMessageDiv := some "[Blocked by content filter]" } := by
    simp [runChatChunkStep, hfin, hdiv, hdelta]
  refine ⟨by rw [hstep], by rw [hstep], ?_⟩
  intro s
  rw [hstep]
  simp [runChatChunkStep, appendTextFragment]

theorem content_filter_legacy_amended_witness :
    (runChatChunkStep asmInit filterChunk).assistantMessageDiv
      = some "[Blocked by content filter]" ∧
    (runChatChunkStep (runChatChunkStep asmInit filterChunk)
      ⟨[⟨some ⟨MsgContent.str "hi", Option.none⟩, Option.none,
         Option.none⟩]⟩).assistantContent = "hi" := by
  have h := content_filter_legacy_amended asmInit filterChunk rfl rfl rfl
  exact ⟨h.1, h.2.2 "hi"⟩

/-! ## Claim C6: cancel-old-before-start-new -/

/-- Claim C6: beginning a new stream while a session is active signals
the old controller's abort exactly once, as the very first visible
event — before any byte of the new session's response is processed. -/
theorem beginStream_aborts_old_first (st : ApiState) (bytes : List Nat)
    (c : Nat) (h : st.currentController = some c) :
    sessionTrace st bytes =
      ApiEvent.abortSignal c :: bytes.map (ApiEvent.byteProcessed st.nextId) ∧
    (sessionTrace st bytes).count (ApiEvent.abortSignal c) = 1 ∧
    ∀ i, ApiEvent.abortSignal i ∉ (sessionTrace st bytes).tail := by
  have htr : sessionTrace st bytes =
      ApiEvent.abortSignal c :: bytes.map (ApiEvent.byteProcessed st.nextId) := by
    simp [sessionTrace, beginStream, abortActive, h]
  refine ⟨htr, ?_, ?_⟩
  · rw [htr, List.count_cons]
    have hz : (bytes.map (ApiEvent.byteProcessed st.nextId)).count
        (ApiEvent.abortSignal c) = 0 := by
      rw [List.count_eq_zero]
      simp
    simp [hz]
  · intro i
    rw [htr]
    simp

theorem beginStream_aborts_old_first_witness :
    sessionTrace ⟨some 5, true, 6⟩ [1, 2] =
      [ApiEvent.abortSignal 5, ApiEvent.byteProcessed 6 1,
       ApiEvent.byteProcessed 6 2] :=
  (beginStream_aborts_old_first ⟨some 5, true, 6⟩ [1, 2] 5 rfl).1

/-! ## Claim C7: the timeout race -/

/-- Claim C7, counterexample: in a run whose only read event is the
rejection a timeout abort produces, the completion callback still
fires and its finalize effects are applied — a response version is
pushed.  The loser of the race is not suppressed. -/
theorem timeout_finalize_not_suppressed :
    ((handleStreamingRun (fun _ => Option.none) [ReadEvent.failure] []
      regenInit).2).regenerationHistory = [⟨"", []⟩] ∧
    regenInit.regenerationHistory = [] :=
  ⟨rfl, rfl⟩

/-- Claim C7 as amended: (i) a timer firing when the session state is
already cleared signals no abort and leaves the `APIService` fields
unchanged; but (ii) a rejected read — which is what a timeout abort
produces — still invokes the completion callback, and (iii) the
streaming completion callback applies its finalize effects (a version
push) unconditionally; (iv) only the legacy script's
`cleanupStreamState` clears the deadline timer so that a completed
stream's timer never fires. -/
theorem timeout_race_amended (st : ApiState) (lst : LegacyApiState)
    (st2 : AsmState) (hist : List Msg) (rg : RegenState)
    {α : Type} (parse : List Char → Option α) (evs : List ReadEvent)
    (hc : st.currentController = Option.none)
    (ha : st.streamingActive = false) :
    abortActive st = (st, []) ∧
    readSSEloop parse sseInit (ReadEvent.failure :: evs) = ([], true) ∧
    (streamOnDone st2 hist rg).2.regenerationHistory.length =
      rg.regenerationHistory.length + 1 ∧
    (cleanupStreamStateLegacy lst).timeoutHandle = Option.none := by
  refine ⟨?_, rfl, ?_, rfl⟩
  · simp only [abortActive, hc]
    rw [← hc, ← ha]
  · simp [streamOnDone, addResponseToHistory]

theorem timeout_race_amended_witness :
    abortActive ⟨Option.none, false, 3⟩ = (⟨Option.none, false, 3⟩, []) ∧
    readSSEloop (fun _ => (Option.none : Option Nat)) sseInit
      [ReadEvent.failure] = ([], true) ∧
    (streamOnDone asmInit [] regenInit).2.regenerationHistory.length = 1 ∧
    (cleanupStreamStateLegacy ⟨some 1, true, some 2⟩).timeoutHandle
      = Option.none := by
  have h := timeout_race_amended ⟨Option.none, false, 3⟩ ⟨some 1, true, some 2⟩
    asmInit [] regenInit (fun _ => (Option.none : Option Nat)) [] rfl rfl
  exact ⟨h.1, h.2.1, h.2.2.1, h.2.2.2⟩

/-! ## Claim C8: cursor bounds and boundary no-ops -/

/-- Claim C8: with a non-empty version list and the cursor in
`[0, len-1]`, `showPreviousResponse` and `showNextResponse` keep the
cursor in `[0, len-1]` and never touch the version list; at the lower
boundary `showPreviousResponse` changes nothing at all (cursor,
versions, conversation history), at the upper boundary
`showNextResponse` changes nothing — so on a single-version slot both
are no-ops. -/
theorem show_prev_next_bounds (rg : RegenState) (hist : List Msg)
    (h0 : 0 ≤ rg.currentResponseIndex)
    (h1 : rg.currentResponseIndex < (rg.regenerationHistory.length : Int)) :
    (0 ≤ (showPreviousResponse rg hist).1.currentResponseIndex ∧
     (showPreviousResponse rg hist).1.currentResponseIndex <
       (rg.regenerationHistory.length : Int) ∧
     (showPreviousResponse rg hist).1.regenerationHistory =
       rg.regenerationHistory) ∧
    (0 ≤ (showNextResponse rg hist).1.currentResponseIndex ∧
     (showNextResponse rg hist).1.currentResponseIndex <
       (rg.regenerationHistory.length : Int) ∧
     (showNextResponse rg hist).1.regenerationHistory =
       rg.regenerationHistory) ∧
    (rg.currentResponseIndex = 0 → showPreviousResponse rg hist = (rg, hist)) ∧
    (rg.currentResponseIndex = (rg.regenerationHistory.length : Int) - 1 →
      showNextResponse rg hist = (rg, hist)) := by
  refine ⟨?_, ?_, ?_, ?_⟩
  · unfold showPreviousResponse
    by_cases hcond : 0 < rg.currentResponseIndex
    · rw [if_pos hcond]
      refine ⟨?_, ?_, rfl⟩ <;> simp <;> omega
    · rw [if_neg hcond]
      exact ⟨h0, h1, rfl⟩
  · unfold showNextResponse
    by_cases hcond : rg.currentResponseIndex <
        (rg.regenerationHistory.length : Int) - 1
    · rw [if_pos hcond]
      refine ⟨?_, ?_, rfl⟩ <;> simp <;> omega
    · rw [if_neg hcond]
      exact ⟨h0, h1, rfl⟩
  · intro hz
    unfold showPreviousResponse
    rw [if_neg (by omega)]
  · intro hlast
    unfold showNextResponse
    rw [if_neg (by omega)]

theorem show_prev_next_bounds_witness :
    showPreviousResponse ⟨[⟨"A", []⟩], 0, Option.none⟩ [] =
      (⟨[⟨"A", []⟩], 0, Option.none⟩, []) ∧
    showNextResponse ⟨[⟨"A", []⟩], 0, Option.none⟩ [] =
      (⟨[⟨"A", []⟩], 0, Option.none⟩, []) := by
  have h := show_prev_next_bounds ⟨[⟨"A", []⟩], 0, Option.none⟩ []
    (by decide) (by decide)
  exact ⟨h.2.2.1 rfl, h.2.2.2 (by decide)⟩

/-! ## Claim C9: what a completed regeneration appends -/

/-- Claim C9, counterexample: with versions `[A, B]` and the cursor on
`A` (index 0), a completed regeneration pushes `C` and moves the
cursor to index 2; one `showPreviousResponse` lands on index 1 — the
version `B`, not the previously displayed `A`. -/
theorem regenerate_prev_not_displayed :
    (addResponseToHistory ⟨[⟨"A", []⟩, ⟨"B", []⟩], 0, Option.none⟩ "C"
      []).currentResponseIndex = 2 ∧
    (showPreviousResponse
      (addResponseToHistory ⟨[⟨"A", []⟩, ⟨"B", []⟩], 0, Option.none⟩ "C" [])
      []).1.currentResponseIndex = 1 ∧
    (addResponseToHistory ⟨[⟨"A", []⟩, ⟨"B", []⟩], 0, Option.none⟩ "C"
      []).regenerationHistory.get? 1 = some ⟨"B", []⟩ ∧
    (⟨"B", []⟩ : Response) ≠ ⟨"A", []⟩ := by
  refine ⟨rfl, ?_, rfl, by decide⟩
  decide

/-- Claim C9 as amended: a completed `regenerate()` run appends
exactly one new version (length `n+1`), moves the cursor to the new
last index, and keeps every previously stored version at its old
index; one `showPreviousResponse` then reaches the version that was
previously *last* — which is the previously displayed version exactly
when the cursor had been on the latest version. -/
theorem regenerate_appends_amended (rg : RegenState) (c : String)
    (i : List String) (hist : List Msg)
    (hn : 0 < rg.regenerationHistory.length) :
    (addResponseToHistory rg c i).regenerationHistory =
      rg.regenerationHistory ++ [⟨c, i⟩] ∧
    (addResponseToHistory rg c i).regenerationHistory.length =
      rg.regenerationHistory.length + 1 ∧
    (addResponseToHistory rg c i).currentResponseIndex =
      (rg.regenerationHistory.length : Int) ∧
    (showPreviousResponse (addResponseToHistory rg c i)
      hist).1.currentResponseIndex = (rg.regenerationHistory.length : Int) - 1 ∧
    (addResponseToHistory rg c i).regenerationHistory.get?
      (rg.regenerationHistory.length - 1) = rg.regenerationHistory.getLast? := by
  have hlist : (addResponseToHistory rg c i).regenerationHistory =
      rg.regenerationHistory ++ [⟨c, i⟩] := rfl
  have hidx : (addResponseToHistory rg c i).currentResponseIndex =
      (rg.regenerationHistory.length : Int) := by
    simp [addResponseToHistory]
  refine ⟨hlist, by rw [hlist]; simp, hidx, ?_, ?_⟩
  · unfold showPreviousResponse
    rw [if_pos (by omega)]
    simp [hidx]
  · rw [hlist, List.get?_append (by omega),
      List.getLast?_eq_get? rg.regenerationHistory]

theorem regenerate_appends_amended_witness :
    (addResponseToHistory ⟨[⟨"A", []⟩], 0, Option.none⟩ "B"
      []).regenerationHistory = [⟨"A", []⟩, ⟨"B", []⟩] ∧
    (showPreviousResponse
      (addResponseToHistory ⟨[⟨"A", []⟩], 0, Option.none⟩ "B" [])
      []).1.currentResponseIndex = 0 := by
  have h := regenerate_appends_amended ⟨[⟨"A", []⟩], 0, Option.none⟩ "B" [] []
    (by decide)
  exact ⟨h.1, h.2.2.2.1⟩

/-! ## Claim C10: regenerate with no stored user turn -/

/-- Claim C10: calling `regenerateLastResponse` while no user message
is stored is a silent no-op — no request is issued and the
regeneration state and conversation history are unchanged. -/
theorem regenerate_noop_when_no_user (rg : RegenState) (hist : List Msg)
    (h : rg.lastUserMessage = Option.none) :
    regenerateLastResponse rg hist = (rg, hist, false) := by
  unfold regenerateLastResponse
  rw [h]

theorem regenerate_noop_when_no_user_witness :
    regenerateLastResponse regenInit [⟨"user", "hi", []⟩] =
      (regenInit, [⟨"user", "hi", []⟩], false) :=
  regenerate_noop_when_no_user regenInit [⟨"user", "hi", []⟩] rfl

end OpenRouterUI
